import Mathlib

/-!
Shallow embedding of the counting engine of the rs-wc word-count utility
(src/count_handling/counter.rs and src/output_handling/printer.rs), together
with theorems settling the specification claims about it.

Byte buffers are modelled as `List Nat` (each element a byte value), machine
`usize` counters as `Nat` (the counts involved stay far below 2^64 for any
addressable buffer, so unbounded `Nat` is a faithful model of the `usize`
arithmetic).
-/

namespace RsWc

/-- Model of the statistics record `WcCounter` (counter.rs, lines 16-24). -/
structure WcCounter where
  lines : Nat
  words : Nat
  bytes : Nat
  chars : Nat
  max_line_length : Nat
  filename : Option String
deriving DecidableEq, Repr

/-- Model of `WcCounter::new` / `WcCounter::default` (counter.rs, lines 27-29). -/
def WcCounter.new : WcCounter :=
  { lines := 0, words := 0, bytes := 0, chars := 0, max_line_length := 0, filename := none }

/-- Model of `WcCounter::add_counts` (counter.rs, lines 32-38): field-wise sums,
maximum for `max_line_length`, `filename` of the accumulator kept. -/
def WcCounter.add_counts (self other : WcCounter) : WcCounter :=
  { self with
    lines := self.lines + other.lines
    words := self.words + other.words
    bytes := self.bytes + other.bytes
    chars := self.chars + other.chars
    max_line_length := max self.max_line_length other.max_line_length }

/-- Model of `CountMode` (parser.rs, lines 4-10). -/
inductive CountMode
  | Lines
  | Words
  | Bytes
  | Chars
deriving DecidableEq, Repr

/-- Model of the error enum `WcError` (error.rs, lines 3-25); payloads of the
foreign error types are abstracted away, message strings kept. -/
inductive WcError
  | IoError
  | Utf8Error
  | InvalidArgument (msg : String)
  | FileNotFound (file : String)
  | PermissionDenied (file : String)
  | JsonError
  | MmapError (msg : String)
deriving DecidableEq, Repr

/-- Model of `u8::is_ascii_whitespace`: space, tab, newline, form feed,
carriage return (Rust's definition does not include vertical tab). -/
def is_ascii_whitespace (b : Nat) : Bool :=
  b == 0x20 || b == 0x09 || b == 0x0A || b == 0x0C || b == 0x0D

/-- Loop body of `process_chunk` (counter.rs, lines 84-102), made explicit as a
recursion carrying the accumulated record, the `in_word` flag and the
`current_line_length`; returns the final full state so that adjacent slices can
be reasoned about. -/
def process_chunk_go : List Nat → WcCounter → Bool → Nat → WcCounter × Bool × Nat
  | [], acc, in_word, cur => (acc, in_word, cur)
  | byte :: rest, acc, in_word, cur =>
    let cur1 := cur + 1
    let acc1 := if byte == 10 then
        { acc with lines := acc.lines + 1, max_line_length := max acc.max_line_length cur1 }
      else acc
    let cur2 := if byte == 10 then 0 else cur1
    if is_ascii_whitespace byte then
      process_chunk_go rest (if in_word then { acc1 with words := acc1.words + 1 } else acc1) false cur2
    else
      process_chunk_go rest { acc1 with chars := acc1.chars + 1 } true cur2

/-- Model of `process_chunk` (counter.rs, lines 79-105). -/
def process_chunk (chunk : List Nat) (initial_in_word : Bool) (initial_line_length : Nat) :
    WcCounter :=
  (process_chunk_go chunk WcCounter.new initial_in_word initial_line_length).1

/-- Fuel-indexed splitting of a list into chunks of `n` elements (last chunk
possibly shorter); the fuel only serves to make the recursion structural and is
always instantiated with the list length. -/
def chunks_of_aux (n : Nat) : Nat → List Nat → List (List Nat)
  | _, [] => []
  | 0, _ :: _ => []
  | fuel + 1, x :: xs => (x :: List.take (n - 1) xs) :: chunks_of_aux n fuel (List.drop (n - 1) xs)

/-- Model of `slice::par_chunks(n)` as the ordered list of chunks it yields:
contiguous chunks of `n` bytes, the last one possibly shorter (counter.rs,
line 159). -/
def chunks_of (n : Nat) (l : List Nat) : List (List Nat) :=
  chunks_of_aux n l.length l

/-- One-byte-at-a-time UTF-8 validator and scalar counter, the byte-level
automaton behind `std::str::from_utf8`: `need` is the number of continuation
bytes still required for the current scalar, `lo`/`hi` the admissible range of
the very next byte while inside a multi-byte sequence, `cnt` the number of
scalar values completed so far. Lead-byte dispatch follows Rust's validation
table: ASCII; 2-byte leads 0xC2..=0xDF; 3-byte leads 0xE0 (second byte
0xA0..=0xBF, ruling out overlongs), 0xED (second byte 0x80..=0x9F, ruling out
surrogates), 0xE1..=0xEC and 0xEE..=0xEF; 4-byte leads 0xF0 (second byte
0x90..=0xBF), 0xF1..=0xF3, 0xF4 (second byte 0x80..=0x8F, capping at
U+10FFFF); later continuation bytes range over 0x80..=0xBF. -/
def utf8_scan : List Nat → Nat → Nat → Nat → Nat → Option Nat
  | [], 0, _, _, cnt => some cnt
  | [], _ + 1, _, _, _ => none
  | b :: rest, 0, _, _, cnt =>
    if b < 0x80 then utf8_scan rest 0 0 0 (cnt + 1)
    else if 0xC2 ≤ b ∧ b ≤ 0xDF then utf8_scan rest 1 0x80 0xBF cnt
    else if b = 0xE0 then utf8_scan rest 2 0xA0 0xBF cnt
    else if b = 0xED then utf8_scan rest 2 0x80 0x9F cnt
    else if (0xE1 ≤ b ∧ b ≤ 0xEC) ∨ (0xEE ≤ b ∧ b ≤ 0xEF) then utf8_scan rest 2 0x80 0xBF cnt
    else if b = 0xF0 then utf8_scan rest 3 0x90 0xBF cnt
    else if 0xF1 ≤ b ∧ b ≤ 0xF3 then utf8_scan rest 3 0x80 0xBF cnt
    else if b = 0xF4 then utf8_scan rest 3 0x80 0x8F cnt
    else none
  | b :: rest, need + 1, lo, hi, cnt =>
    if lo ≤ b ∧ b ≤ hi then
      if need = 0 then utf8_scan rest 0 0 0 (cnt + 1)
      else utf8_scan rest need 0x80 0xBF cnt
    else none

/-- Model of `std::str::from_utf8` composed with `str::chars().count()`
(counter.rs, lines 174-177): `some n` with `n` the number of Unicode scalar
values when the byte list is valid UTF-8, `none` when validation fails. -/
def utf8_char_count (l : List Nat) : Option Nat :=
  utf8_scan l 0 0 0 0

/-- Model of `matches!(m, CountMode::Lines | CountMode::Words | CountMode::Chars)`
(counter.rs, line 155). -/
def CountMode.is_lwc : CountMode → Bool
  | CountMode.Bytes => false
  | _ => true

/-- The 1 MB chunk size constant `CHUNK_SIZE` of `count_bytes` (counter.rs, line 157). -/
def CHUNK_SIZE : Nat := 1024 * 1024

/-- Body of `count_bytes` (counter.rs, lines 141-182): set `bytes` when
requested; when any of Lines/Words/Chars is requested, split the buffer into
1 MB chunks, scan each chunk with `process_chunk chunk false 0`, accumulate the
chunk records with `add_counts`, add one word when the final byte of the whole
buffer is non-whitespace, and when Chars is requested overwrite `chars` with
the UTF-8 scalar count (falling back to the byte length on invalid UTF-8). -/
def count_bytes_core (b : List Nat) (filename : Option String) (modes : List CountMode) :
    WcCounter :=
  let counter : WcCounter := { WcCounter.new with filename := filename }
  let counter := if CountMode.Bytes ∈ modes then { counter with bytes := b.length } else counter
  if modes.any CountMode.is_lwc then
    let chunk_counts := (chunks_of CHUNK_SIZE b).map (fun chunk => process_chunk chunk false 0)
    let counter := chunk_counts.foldl WcCounter.add_counts counter
    let counter := if (b.getLast?.map (fun x => ! is_ascii_whitespace x)).getD false then
        { counter with words := counter.words + 1 }
      else counter
    if CountMode.Chars ∈ modes then
      { counter with chars := match utf8_char_count b with | some n => n | none => b.length }
    else counter
  else counter

instance : DecidableEq (Except WcError WcCounter) := fun a b =>
  match a, b with
  | Except.ok x, Except.ok y =>
    if h : x = y then Decidable.isTrue (by rw [h]) else
      Decidable.isFalse (by intro hc; cases hc; exact h rfl)
  | Except.error x, Except.error y =>
    if h : x = y then Decidable.isTrue (by rw [h]) else
      Decidable.isFalse (by intro hc; cases hc; exact h rfl)
  | Except.ok _, Except.error _ => Decidable.isFalse (by intro hc; cases hc)
  | Except.error _, Except.ok _ => Decidable.isFalse (by intro hc; cases hc)

/-- Model of `count_bytes` (counter.rs, lines 141-182): the Rust function
returns `WcResult<WcCounter>` but its body has no failing path, so it is
`Except.ok` of the pure record. -/
def count_bytes (b : List Nat) (filename : Option String) (modes : List CountMode) :
    Except WcError WcCounter :=
  Except.ok (count_bytes_core b filename modes)

/-- Grand-total accumulation of `build_output` (printer.rs, lines 93-96):
a freshly created record folded over the per-source records with `+=`. -/
def compute_total (results : List WcCounter) : WcCounter :=
  results.foldl WcCounter.add_counts WcCounter.new

/-- Total record appended by `build_output` (printer.rs, lines 92-109): present
exactly when more than one per-source record is present. -/
def build_output_total (results : List WcCounter) : Option WcCounter :=
  if results.length > 1 then some (compute_total results) else none

/-- Record-level view of `build_output` (printer.rs, lines 67-112): the ordered
sequence of records that get formatted, one line per per-source record in input
order followed by the grand total when present. -/
def build_output_records (results : List WcCounter) : List WcCounter :=
  results ++ (match build_output_total results with
    | some t => [t]
    | none => [])

/-- Number of bytes of the buffer satisfying a predicate. -/
def count_p (p : Nat → Bool) (l : List Nat) : Nat :=
  (l.filter p).length

/-- Number of line-terminator bytes of the buffer. -/
def newline_count (l : List Nat) : Nat :=
  count_p (fun x => x == 10) l

/-- Number of bytes of the buffer that are not ASCII whitespace. -/
def non_ws_count (l : List Nat) : Nat :=
  count_p (fun x => ! is_ascii_whitespace x) l

/-- End-of-buffer word correction of `count_bytes` (counter.rs, lines 169-171). -/
def end_word_correction (b : List Nat) (c : WcCounter) : WcCounter :=
  if (b.getLast?.map (fun x => ! is_ascii_whitespace x)).getD false then
    { c with words := c.words + 1 }
  else c

/-- Scanning the buffer as a single chunk, with the end-of-buffer word
correction applied: the reference computation the chunked one is claimed to
match. -/
def scan_whole (b : List Nat) : WcCounter :=
  end_word_correction b (process_chunk b false 0)

/-- The chunked computation of `count_bytes` with an arbitrary chunk size `s`:
every chunk scanned with `process_chunk chunk false 0`, the chunk records
summed with `add_counts`, and the end-of-buffer word correction applied. -/
def merge_chunks (s : Nat) (b : List Nat) : WcCounter :=
  end_word_correction b
    (((chunks_of s b).map (fun chunk => process_chunk chunk false 0)).foldl
      WcCounter.add_counts WcCounter.new)

/-- Splitting a buffer in two at offset `k`, scanning both halves independently
and merging, with the end-of-buffer word correction applied. -/
def split_merge (k : Nat) (b : List Nat) : WcCounter :=
  end_word_correction b
    ((WcCounter.new.add_counts (process_chunk (b.take k) false 0)).add_counts
      (process_chunk (b.drop k) false 0))

/-! ## General lemmas about the accumulation fold -/

theorem foldl_add_counts_lines (ps : List WcCounter) :
    ∀ init : WcCounter,
      (ps.foldl WcCounter.add_counts init).lines = init.lines + (ps.map WcCounter.lines).sum := by
  induction ps with
  | nil => intro init; simp
  | cons p ps ih =>
    intro init
    simp only [List.foldl_cons, List.map_cons, List.sum_cons, ih, WcCounter.add_counts]
    omega

theorem foldl_add_counts_words (ps : List WcCounter) :
    ∀ init : WcCounter,
      (ps.foldl WcCounter.add_counts init).words = init.words + (ps.map WcCounter.words).sum := by
  induction ps with
  | nil => intro init; simp
  | cons p ps ih =>
    intro init
    simp only [List.foldl_cons, List.map_cons, List.sum_cons, ih, WcCounter.add_counts]
    omega

theorem foldl_add_counts_bytes (ps : List WcCounter) :
    ∀ init : WcCounter,
      (ps.foldl WcCounter.add_counts init).bytes = init.bytes + (ps.map WcCounter.bytes).sum := by
  induction ps with
  | nil => intro init; simp
  | cons p ps ih =>
    intro init
    simp only [List.foldl_cons, List.map_cons, List.sum_cons, ih, WcCounter.add_counts]
    omega

theorem foldl_add_counts_chars (ps : List WcCounter) :
    ∀ init : WcCounter,
      (ps.foldl WcCounter.add_counts init).chars = init.chars + (ps.map WcCounter.chars).sum := by
  induction ps with
  | nil => intro init; simp
  | cons p ps ih =>
    intro init
    simp only [List.foldl_cons, List.map_cons, List.sum_cons, ih, WcCounter.add_counts]
    omega

theorem foldl_add_counts_max (ps : List WcCounter) :
    ∀ init : WcCounter,
      (ps.foldl WcCounter.add_counts init).max_line_length =
        (ps.map WcCounter.max_line_length).foldl max init.max_line_length := by
  induction ps with
  | nil => intro init; simp
  | cons p ps ih =>
    intro init
    simp only [List.foldl_cons, List.map_cons, ih, WcCounter.add_counts]

theorem foldl_add_counts_filename (ps : List WcCounter) :
    ∀ init : WcCounter,
      (ps.foldl WcCounter.add_counts init).filename = init.filename := by
  induction ps with
  | nil => intro init; rfl
  | cons p ps ih =>
    intro init
    simp only [List.foldl_cons, ih, WcCounter.add_counts]

/-! ## Field characterizations of the chunk scanner -/

theorem process_chunk_go_lines (l : List Nat) :
    ∀ (acc : WcCounter) (iw : Bool) (cur : Nat),
      ((process_chunk_go l acc iw cur).1).lines = acc.lines + newline_count l := by
  induction l with
  | nil => intro acc iw cur; simp [process_chunk_go, newline_count, count_p]
  | cons b t ih =>
    intro acc iw cur
    by_cases hb : b == 10
    · have hw : is_ascii_whitespace b = true := by
        simp only [is_ascii_whitespace]
        simp only [beq_iff_eq] at hb
        subst hb
        decide
      by_cases hiw : iw
      · simp [process_chunk_go, hb, hw, hiw, ih, newline_count, count_p, List.filter_cons]
        omega
      · simp [process_chunk_go, hb, hw, hiw, ih, newline_count, count_p, List.filter_cons]
        omega
    · by_cases hw : is_ascii_whitespace b
      · by_cases hiw : iw
        · simp [process_chunk_go, hb, hw, hiw, ih, newline_count, count_p, List.filter_cons]
        · simp [process_chunk_go, hb, hw, hiw, ih, newline_count, count_p, List.filter_cons]
      · simp [process_chunk_go, hb, hw, ih, newline_count, count_p, List.filter_cons]

theorem process_chunk_go_chars (l : List Nat) :
    ∀ (acc : WcCounter) (iw : Bool) (cur : Nat),
      ((process_chunk_go l acc iw cur).1).chars = acc.chars + non_ws_count l := by
  induction l with
  | nil => intro acc iw cur; simp [process_chunk_go, non_ws_count, count_p]
  | cons b t ih =>
    intro acc iw cur
    by_cases hb : b == 10
    · have hw : is_ascii_whitespace b = true := by
        simp only [is_ascii_whitespace]
        simp only [beq_iff_eq] at hb
        subst hb
        decide
      by_cases hiw : iw
      · simp [process_chunk_go, hb, hw, hiw, ih, non_ws_count, count_p, List.filter_cons]
      · simp [process_chunk_go, hb, hw, hiw, ih, non_ws_count, count_p, List.filter_cons]
    · by_cases hw : is_ascii_whitespace b
      · by_cases hiw : iw
        · simp [process_chunk_go, hb, hw, hiw, ih, non_ws_count, count_p, List.filter_cons]
        · simp [process_chunk_go, hb, hw, hiw, ih, non_ws_count, count_p, List.filter_cons]
      · simp [process_chunk_go, hb, hw, ih, non_ws_count, count_p, List.filter_cons]
        omega

theorem process_chunk_go_bytes (l : List Nat) :
    ∀ (acc : WcCounter) (iw : Bool) (cur : Nat),
      ((process_chunk_go l acc iw cur).1).bytes = acc.bytes := by
  induction l with
  | nil => intro acc iw cur; rfl
  | cons b t ih =>
    intro acc iw cur
    by_cases hb : b == 10
    · have hw : is_ascii_whitespace b = true := by
        simp only [is_ascii_whitespace]
        simp only [beq_iff_eq] at hb
        subst hb
        decide
      by_cases hiw : iw
      · simp [process_chunk_go, hb, hw, hiw, ih]
      · simp [process_chunk_go, hb, hw, hiw, ih]
    · by_cases hw : is_ascii_whitespace b
      · by_cases hiw : iw
        · simp [process_chunk_go, hb, hw, hiw, ih]
        · simp [process_chunk_go, hb, hw, hiw, ih]
      · simp [process_chunk_go, hb, hw, ih]

theorem process_chunk_lines (chunk : List Nat) (iw : Bool) (cur : Nat) :
    (process_chunk chunk iw cur).lines = newline_count chunk := by
  simp [process_chunk, process_chunk_go_lines, WcCounter.new]

theorem process_chunk_chars (chunk : List Nat) (iw : Bool) (cur : Nat) :
    (process_chunk chunk iw cur).chars = non_ws_count chunk := by
  simp [process_chunk, process_chunk_go_chars, WcCounter.new]

theorem process_chunk_bytes (chunk : List Nat) (iw : Bool) (cur : Nat) :
    (process_chunk chunk iw cur).bytes = 0 := by
  simp [process_chunk, process_chunk_go_bytes, WcCounter.new]

/-! ## Chunking lemmas -/

theorem count_p_append (p : Nat → Bool) (l₁ l₂ : List Nat) :
    count_p p (l₁ ++ l₂) = count_p p l₁ + count_p p l₂ := by
  simp [count_p, List.filter_append]

theorem chunks_of_aux_sum (n : Nat) (μ : List Nat → Nat)
    (hadd : ∀ l₁ l₂, μ (l₁ ++ l₂) = μ l₁ + μ l₂) :
    ∀ (fuel : Nat) (l : List Nat), l.length ≤ fuel →
      ((chunks_of_aux n fuel l).map μ).sum = μ l := by
  have hnil : μ [] = 0 := by
    have := hadd [] []
    simp at this
    omega
  intro fuel
  induction fuel with
  | zero =>
    intro l hl
    interval_cases hlen : l.length
    · cases l with
      | nil => simp [chunks_of_aux, hnil]
      | cons x xs => simp at hlen
  | succ f ih =>
    intro l hl
    cases l with
    | nil => simp [chunks_of_aux, hnil]
    | cons x xs =>
      have hdrop : (List.drop (n - 1) xs).length ≤ f := by
        have h1 : xs.length ≤ f := by
          simpa using Nat.le_of_succ_le_succ hl
        have h2 : (List.drop (n - 1) xs).length ≤ xs.length := by
          simp [List.length_drop]
        omega
      have hsplit : (x :: List.take (n - 1) xs) ++ List.drop (n - 1) xs = x :: xs := by
        simp [List.take_append_drop]
      calc ((chunks_of_aux n (f + 1) (x :: xs)).map μ).sum
          = μ (x :: List.take (n - 1) xs) + ((chunks_of_aux n f (List.drop (n - 1) xs)).map μ).sum := by
            simp [chunks_of_aux]
        _ = μ (x :: List.take (n - 1) xs) + μ (List.drop (n - 1) xs) := by rw [ih _ hdrop]
        _ = μ ((x :: List.take (n - 1) xs) ++ List.drop (n - 1) xs) := by rw [hadd]
        _ = μ (x :: xs) := by rw [hsplit]

theorem chunks_of_sum (n : Nat) (μ : List Nat → Nat)
    (hadd : ∀ l₁ l₂, μ (l₁ ++ l₂) = μ l₁ + μ l₂) (l : List Nat) :
    ((chunks_of n l).map μ).sum = μ l :=
  chunks_of_aux_sum n μ hadd l.length l (Nat.le_refl _)

theorem newline_count_append (l₁ l₂ : List Nat) :
    newline_count (l₁ ++ l₂) = newline_count l₁ + newline_count l₂ :=
  count_p_append _ l₁ l₂

theorem non_ws_count_append (l₁ l₂ : List Nat) :
    non_ws_count (l₁ ++ l₂) = non_ws_count l₁ + non_ws_count l₂ :=
  count_p_append _ l₁ l₂

theorem sum_map_zero (l : List (List Nat)) : (l.map (fun _ => (0 : Nat))).sum = 0 := by
  induction l with
  | nil => rfl
  | cons x xs ih => simp [ih]

/-! ## Field characterizations of count_bytes_core -/

theorem count_bytes_core_bytes (b : List Nat) (fn : Option String) (modes : List CountMode) :
    (count_bytes_core b fn modes).bytes = if CountMode.Bytes ∈ modes then b.length else 0 := by
  unfold count_bytes_core
  by_cases hB : CountMode.Bytes ∈ modes <;>
    by_cases hA : modes.any CountMode.is_lwc <;>
      by_cases hL : (b.getLast?.map (fun x => ! is_ascii_whitespace x)).getD false <;>
        by_cases hC : CountMode.Chars ∈ modes <;>
          simp [hB, hA, hL, hC, foldl_add_counts_bytes, List.map_map, Function.comp_def,
            process_chunk_bytes, sum_map_zero, WcCounter.new]

theorem count_bytes_core_lines (b : List Nat) (fn : Option String) (modes : List CountMode)
    (hA : modes.any CountMode.is_lwc = true) :
    (count_bytes_core b fn modes).lines = newline_count b := by
  have hsum : ((chunks_of CHUNK_SIZE b).map newline_count).sum = newline_count b :=
    chunks_of_sum _ _ newline_count_append b
  unfold count_bytes_core
  by_cases hB : CountMode.Bytes ∈ modes <;>
    by_cases hL : (b.getLast?.map (fun x => ! is_ascii_whitespace x)).getD false <;>
      by_cases hC : CountMode.Chars ∈ modes <;>
        simp [hB, hA, hL, hC, foldl_add_counts_lines, List.map_map, Function.comp_def,
          process_chunk_lines, hsum, WcCounter.new]

theorem count_bytes_core_chars_of_chars (b : List Nat) (fn : Option String)
    (modes : List CountMode) (hC : CountMode.Chars ∈ modes) :
    (count_bytes_core b fn modes).chars =
      match utf8_char_count b with | some n => n | none => b.length := by
  have hA : modes.any CountMode.is_lwc = true :=
    List.any_eq_true.mpr ⟨CountMode.Chars, hC, rfl⟩
  unfold count_bytes_core
  by_cases hB : CountMode.Bytes ∈ modes <;>
    by_cases hL : (b.getLast?.map (fun x => ! is_ascii_whitespace x)).getD false <;>
      simp [hB, hA, hL, hC]

theorem count_bytes_core_chars_of_not_chars (b : List Nat) (fn : Option String)
    (modes : List CountMode) (hA : modes.any CountMode.is_lwc = true)
    (hC : CountMode.Chars ∉ modes) :
    (count_bytes_core b fn modes).chars = non_ws_count b := by
  have hsum : ((chunks_of CHUNK_SIZE b).map non_ws_count).sum = non_ws_count b :=
    chunks_of_sum _ _ non_ws_count_append b
  unfold count_bytes_core
  by_cases hB : CountMode.Bytes ∈ modes <;>
    by_cases hL : (b.getLast?.map (fun x => ! is_ascii_whitespace x)).getD false <;>
      simp [hB, hA, hL, hC, foldl_add_counts_chars, List.map_map, Function.comp_def,
        process_chunk_chars, hsum, WcCounter.new]

theorem count_bytes_core_chars_of_no_scan (b : List Nat) (fn : Option String)
    (modes : List CountMode) (hA : modes.any CountMode.is_lwc = false) :
    (count_bytes_core b fn modes).chars = 0 := by
  unfold count_bytes_core
  by_cases hB : CountMode.Bytes ∈ modes <;> simp [hB, hA, WcCounter.new]

/-! ## UTF-8 scalar count is bounded by byte length -/

theorem utf8_scan_le (l : List Nat) :
    ∀ (need lo hi cnt n : Nat), utf8_scan l need lo hi cnt = some n → n ≤ cnt + l.length := by
  induction l with
  | nil =>
    intro need lo hi cnt n h
    cases need with
    | zero =>
      injection h with h0
      omega
    | succ need => exact absurd h (by simp [utf8_scan])
  | cons b rest ih =>
    intro need lo hi cnt n h
    cases need with
    | zero =>
      simp only [utf8_scan] at h
      split_ifs at h <;>
        first
        | exact absurd h (by simp)
        | (have hle := ih _ _ _ _ _ h
           simp only [List.length_cons]
           omega)
    | succ need =>
      simp only [utf8_scan] at h
      split_ifs at h <;>
        first
        | exact absurd h (by simp)
        | (have hle := ih _ _ _ _ _ h
           simp only [List.length_cons]
           omega)

theorem utf8_char_count_le (l : List Nat) (n : Nat) (h : utf8_char_count l = some n) :
    n ≤ l.length := by
  have hle := utf8_scan_le l 0 0 0 0 n h
  omega

/-! ## Chunk splitting of an append at an exact chunk boundary -/

theorem chunks_of_aux_congr (n : Nat) :
    ∀ (f₁ f₂ : Nat) (l : List Nat), l.length ≤ f₁ → l.length ≤ f₂ →
      chunks_of_aux n f₁ l = chunks_of_aux n f₂ l := by
  intro f₁
  induction f₁ with
  | zero =>
    intro f₂ l h1 h2
    cases l with
    | nil => cases f₂ <;> rfl
    | cons x xs =>
      simp only [List.length_cons] at h1
      omega
  | succ f ih =>
    intro f₂ l h1 h2
    cases l with
    | nil => cases f₂ <;> rfl
    | cons x xs =>
      cases f₂ with
      | zero =>
        simp only [List.length_cons] at h2
        omega
      | succ g =>
        simp only [chunks_of_aux]
        congr 1
        apply ih
        · have := List.length_drop (n - 1) xs
          simp only [List.length_cons] at h1
          omega
        · have := List.length_drop (n - 1) xs
          simp only [List.length_cons] at h2
          omega

theorem chunks_of_append (n : Nat) (l₁ l₂ : List Nat) (h1 : l₁.length = n) (hn : 0 < n) :
    chunks_of n (l₁ ++ l₂) = l₁ :: chunks_of n l₂ := by
  cases l₁ with
  | nil =>
    simp at h1
    omega
  | cons x xs =>
    have hx : xs.length = n - 1 := by
      simp only [List.length_cons] at h1
      omega
    unfold chunks_of
    rw [List.cons_append]
    simp only [List.length_cons, List.length_append, chunks_of_aux]
    rw [← hx, List.take_left, List.drop_left]
    congr 1
    apply chunks_of_aux_congr
    · have := List.length_append xs l₂
      omega
    · exact Nat.le_refl _

/-! ## The chunk scanner over an append and over a run of letters -/

theorem process_chunk_go_append (l₁ : List Nat) :
    ∀ (l₂ : List Nat) (acc : WcCounter) (iw : Bool) (cur : Nat),
      process_chunk_go (l₁ ++ l₂) acc iw cur =
        process_chunk_go l₂ (process_chunk_go l₁ acc iw cur).1
          (process_chunk_go l₁ acc iw cur).2.1 (process_chunk_go l₁ acc iw cur).2.2 := by
  induction l₁ with
  | nil => intro l₂ acc iw cur; rfl
  | cons b t ih =>
    intro l₂ acc iw cur
    by_cases hw : is_ascii_whitespace b <;> by_cases hiw : iw <;>
      simp [process_chunk_go, hw, hiw, List.cons_append, ih]

theorem process_chunk_go_replicate_97 (n : Nat) :
    ∀ (acc : WcCounter) (iw : Bool) (cur : Nat),
      process_chunk_go (List.replicate n 97) acc iw cur =
        ({ acc with chars := acc.chars + n }, (if n = 0 then iw else true), cur + n) := by
  induction n with
  | zero => intro acc iw cur; rfl
  | succ n ih =>
    intro acc iw cur
    rw [List.replicate_succ]
    have h10 : ((97 : Nat) == 10) = false := rfl
    have hws : is_ascii_whitespace 97 = false := rfl
    simp only [process_chunk_go, h10, hws, Bool.false_eq_true, if_false, ih]
    have hc : acc.chars + 1 + n = acc.chars + (n + 1) := by omega
    have hcur : cur + 1 + n = cur + (n + 1) := by omega
    simp [hc, hcur]

theorem count_bytes_ok_inv {b : List Nat} {fn : Option String} {modes : List CountMode}
    {c : WcCounter} (hc : count_bytes b fn modes = Except.ok c) :
    c = count_bytes_core b fn modes :=
  (Except.ok.inj hc).symm

/-- Scanning a run of `n` letters as one chunk tallies `n` non-whitespace
bytes and nothing else. -/
theorem process_chunk_replicate (n : Nat) :
    process_chunk (List.replicate n 97) false 0 = { WcCounter.new with chars := n } := by
  unfold process_chunk
  rw [process_chunk_go_replicate_97]
  simp [WcCounter.new]

/-- Scanning a run of `n` letters followed by a tail as one chunk continues
the scan of the tail from the state reached after the letters: `n` tallied
non-whitespace bytes, inside a word when `n` is positive, line length `n`. -/
theorem process_chunk_replicate_append (n : Nat) (l₂ : List Nat) :
    process_chunk (List.replicate n 97 ++ l₂) false 0 =
      (process_chunk_go l₂ { WcCounter.new with chars := n }
        (if n = 0 then false else true) n).1 := by
  unfold process_chunk
  rw [process_chunk_go_append, process_chunk_go_replicate_97]
  simp [WcCounter.new]

/-- Characterization of the `words` field of `count_bytes_core`: the sum of
the per-chunk word counts plus the end-of-buffer correction. -/
theorem count_bytes_core_words (b : List Nat) (fn : Option String) (modes : List CountMode)
    (hA : modes.any CountMode.is_lwc = true) :
    (count_bytes_core b fn modes).words =
      ((chunks_of CHUNK_SIZE b).map (fun c => (process_chunk c false 0).words)).sum +
        (if (b.getLast?.map (fun x => ! is_ascii_whitespace x)).getD false then 1 else 0) := by
  unfold count_bytes_core
  by_cases hB : CountMode.Bytes ∈ modes <;>
    by_cases hL : (b.getLast?.map (fun x => ! is_ascii_whitespace x)).getD false <;>
      by_cases hC : CountMode.Chars ∈ modes <;>
        simp [hB, hA, hL, hC, foldl_add_counts_words, List.map_map, Function.comp_def,
          WcCounter.new]

/-- The 1 MB chunk splitting of a buffer made of one full chunk of letters
followed by a space and one more letter. -/
theorem chunks_of_two_chunks :
    chunks_of CHUNK_SIZE (List.replicate CHUNK_SIZE 97 ++ [32, 98]) =
      [List.replicate CHUNK_SIZE 97, [32, 98]] := by
  rw [chunks_of_append CHUNK_SIZE _ _ (List.length_replicate _ _) (by decide)]
  rfl

/-- Evaluation of the `count_bytes` record on a buffer of exactly one full
1 MB chunk of letters followed by a space and one more letter: the word closed
by the space at the very first byte of the second chunk is lost, leaving
`words = 1`. -/
theorem count_bytes_two_chunks_words :
    (count_bytes_core (List.replicate CHUNK_SIZE 97 ++ [32, 98]) none
      [CountMode.Words]).words = 1 := by
  rw [count_bytes_core_words _ _ _ (by decide), chunks_of_two_chunks]
  rw [show List.map (fun c => (process_chunk c false 0).words)
        [List.replicate CHUNK_SIZE 97, [32, 98]] =
      [(process_chunk (List.replicate CHUNK_SIZE 97) false 0).words,
       (process_chunk [32, 98] false 0).words] from rfl]
  rw [process_chunk_replicate, List.getLast?_append_cons]
  decide

/-- Scanning the same two-chunk buffer as a single chunk yields the correct
`words = 2` (the run of letters, then the final letter). -/
theorem scan_whole_two_chunks_words :
    (scan_whole (List.replicate CHUNK_SIZE 97 ++ [32, 98])).words = 2 := by
  rw [scan_whole, process_chunk_replicate_append, end_word_correction,
    List.getLast?_append_cons]
  decide

/-! ## The claims -/

/-- Claim C1: the spec claims that for every chunk size the chunked computation
(each chunk scanned with `in_word = false` and line length 0, records summed,
end-of-buffer word correction applied) equals the single-chunk scan on `lines`,
`words` and `max_line_length`, and that the fixed 1 MB chunking of
`count_bytes` equals a whole-buffer scan. The code refutes this: splitting the
buffer "a " into chunks of size 1 yields `words = 0` while the whole-buffer
scan yields 1; splitting "ab\n" into chunks of size 1 yields
`max_line_length = 1` instead of 3; and `count_bytes` itself, on a buffer of
one full 1 MB chunk of letters followed by " b", returns a record with
`words = 1` where the whole-buffer scan returns 2. -/
theorem C1_chunked_scan_not_boundary_transparent :
    (scan_whole [97, 32]).words = 1 ∧
    (merge_chunks 1 [97, 32]).words = 0 ∧
    (merge_chunks 2 [97, 32]).words = 1 ∧
    (scan_whole [97, 98, 10]).max_line_length = 3 ∧
    (merge_chunks 1 [97, 98, 10]).max_line_length = 1 ∧
    count_bytes (List.replicate CHUNK_SIZE 97 ++ [32, 98]) none [CountMode.Words] =
      Except.ok (count_bytes_core (List.replicate CHUNK_SIZE 97 ++ [32, 98]) none
        [CountMode.Words]) ∧
    (count_bytes_core (List.replicate CHUNK_SIZE 97 ++ [32, 98]) none
      [CountMode.Words]).words = 1 ∧
    (scan_whole (List.replicate CHUNK_SIZE 97 ++ [32, 98])).words = 2 :=
  ⟨by decide, by decide, by decide, by decide, by decide,
   rfl, count_bytes_two_chunks_words, scan_whole_two_chunks_words⟩

/-- Claim C2: the spec claims that "hello world" counts as 2 words and that
splitting it in two at every offset 1..10 (both halves scanned independently
with `in_word = false`, word counts summed, plus one for the non-whitespace
final byte) still yields 2. The code refutes the offset-5 case: the chunks
"hello" and " world" contain no word-ending whitespace transition at all, so
the merged count is 1, not 2; every other offset does yield 2. -/
theorem C2_word_split_at_space_boundary_lost :
    (scan_whole [104, 101, 108, 108, 111, 32, 119, 111, 114, 108, 100]).words = 2 ∧
    (split_merge 5 [104, 101, 108, 108, 111, 32, 119, 111, 114, 108, 100]).words = 1 ∧
    (∀ k ∈ ([1, 2, 3, 4, 6, 7, 8, 9, 10] : List Nat),
      (split_merge k [104, 101, 108, 108, 111, 32, 119, 111, 114, 108, 100]).words = 2) := by
  decide

/-- Claim C3: the spec claims `max_line_length` measures the longest line, an
unterminated trailing line counting up to end-of-input, so "abc" must give 3.
The code refutes this: the in-progress line length is folded into the maximum
only when a terminator byte is seen, so `count_bytes "abc"` returns
`max_line_length = 0`; the terminated "ab\n" does give 3 (terminator
included), confirming only the trailing-line part diverges. -/
theorem C3_unterminated_trailing_line_dropped :
    count_bytes [97, 98, 99] none [CountMode.Lines] =
      Except.ok { lines := 0, words := 1, bytes := 0, chars := 3,
                  max_line_length := 0, filename := none } ∧
    count_bytes [97, 98, 10] none [CountMode.Lines] =
      Except.ok { lines := 1, words := 1, bytes := 0, chars := 2,
                  max_line_length := 3, filename := none } := by
  decide

/-- Claim C4: with Lines among the requested modes, the `lines` field returned
by `count_bytes` equals exactly the number of newline bytes in the buffer, with
no extra unit for an unterminated final line: "a\nb\n" gives 2 and "a\nb"
gives 1. -/
theorem C4_lines_eq_newline_count (b : List Nat) (fn : Option String)
    (modes : List CountMode) (h : CountMode.Lines ∈ modes) :
    (∀ c, count_bytes b fn modes = Except.ok c → c.lines = newline_count b) ∧
    (∀ c, count_bytes [97, 10, 98, 10] none [CountMode.Lines] = Except.ok c → c.lines = 2) ∧
    (∀ c, count_bytes [97, 10, 98] none [CountMode.Lines] = Except.ok c → c.lines = 1) := by
  refine ⟨?_, ?_, ?_⟩
  · intro c hc
    rw [count_bytes_ok_inv hc]
    exact count_bytes_core_lines b fn modes (List.any_eq_true.mpr ⟨CountMode.Lines, h, rfl⟩)
  · intro c hc
    rw [count_bytes_ok_inv hc]
    decide
  · intro c hc
    rw [count_bytes_ok_inv hc]
    decide

/-- Witness for C4 at the concrete buffer "a\nb". -/
theorem C4_witness :
    (count_bytes_core [97, 10, 98] none [CountMode.Lines]).lines =
      newline_count [97, 10, 98] :=
  (C4_lines_eq_newline_count [97, 10, 98] none [CountMode.Lines] (by decide)).1
    (count_bytes_core [97, 10, 98] none [CountMode.Lines]) rfl

/-- Claim C5: `count_bytes` terminates with `Ok` on every byte buffer
(including empty and invalid UTF-8) and every mode set, and with Bytes among
the modes the `bytes` field of the result equals the buffer length. -/
theorem C5_count_bytes_never_fails (b : List Nat) (fn : Option String)
    (modes : List CountMode) :
    count_bytes b fn modes = Except.ok (count_bytes_core b fn modes) ∧
    (CountMode.Bytes ∈ modes → (count_bytes_core b fn modes).bytes = b.length) := by
  refine ⟨rfl, fun h => ?_⟩
  rw [count_bytes_core_bytes]
  simp [h]

/-- Witness for C5 on a non-UTF-8 buffer with the Bytes mode. -/
theorem C5_witness :
    (count_bytes_core [255, 254] none [CountMode.Bytes]).bytes = [255, 254].length :=
  (C5_count_bytes_never_fails [255, 254] none [CountMode.Bytes]).2 (by decide)

/-- Claim C6: with Chars among the requested modes, `count_bytes` sets `chars`
to the Unicode scalar count when the whole buffer is valid UTF-8 and to the raw
byte length when decoding fails, never failing the operation itself; the UTF-8
bytes of "こんにちは世界\n" give `chars = 8`, and an invalid buffer falls back
to its byte length. -/
theorem C6_chars_scalar_count_with_fallback (b : List Nat) (fn : Option String)
    (modes : List CountMode) (h : CountMode.Chars ∈ modes) :
    (∀ c, count_bytes b fn modes = Except.ok c →
      c.chars = match utf8_char_count b with | some n => n | none => b.length) ∧
    (∀ c, count_bytes
        [0xE3, 0x81, 0x93, 0xE3, 0x82, 0x93, 0xE3, 0x81, 0xAB, 0xE3, 0x81, 0xA1,
         0xE3, 0x81, 0xAF, 0xE4, 0xB8, 0x96, 0xE7, 0x95, 0x8C, 10]
        none [CountMode.Chars] = Except.ok c → c.chars = 8) ∧
    (∀ c, count_bytes [0xFF, 97] none [CountMode.Chars] = Except.ok c → c.chars = 2) := by
  refine ⟨?_, ?_, ?_⟩
  · intro c hc
    rw [count_bytes_ok_inv hc]
    exact count_bytes_core_chars_of_chars b fn modes h
  · intro c hc
    rw [count_bytes_ok_inv hc]
    decide
  · intro c hc
    rw [count_bytes_ok_inv hc]
    decide

/-- Witness for C6 at the two-byte UTF-8 encoding of é. -/
theorem C6_witness :
    (count_bytes_core [0xC3, 0xA9] none [CountMode.Chars]).chars =
      match utf8_char_count [0xC3, 0xA9] with | some n => n | none => [0xC3, 0xA9].length :=
  (C6_chars_scalar_count_with_fallback [0xC3, 0xA9] none [CountMode.Chars] (by decide)).1
    (count_bytes_core [0xC3, 0xA9] none [CountMode.Chars]) rfl

/-- Counterexample to claim C7 as stated: with modes = [Lines] on the one-byte
buffer "a", the returned record has `chars = 1` (the internal non-whitespace
tally) but `bytes = 0` (Bytes was not requested), violating chars ≤ bytes. -/
theorem C7_counterexample :
    ¬ ((count_bytes_core [97] none [CountMode.Lines]).chars ≤
        (count_bytes_core [97] none [CountMode.Lines]).bytes) := by
  decide

/-- Claim C7 (amended): whenever Bytes is among the requested modes, every
record returned by `count_bytes` satisfies `chars ≤ bytes`. -/
theorem C7_chars_le_bytes_when_bytes_requested (b : List Nat) (fn : Option String)
    (modes : List CountMode) (h : CountMode.Bytes ∈ modes) :
    ∀ c, count_bytes b fn modes = Except.ok c → c.chars ≤ c.bytes := by
  intro c hc
  rw [count_bytes_ok_inv hc]
  have hbytes : (count_bytes_core b fn modes).bytes = b.length := by
    rw [count_bytes_core_bytes]
    simp [h]
  rw [hbytes]
  by_cases hA : modes.any CountMode.is_lwc
  · by_cases hC : CountMode.Chars ∈ modes
    · rw [count_bytes_core_chars_of_chars b fn modes hC]
      cases hu : utf8_char_count b with
      | some n => exact utf8_char_count_le b n hu
      | none => exact Nat.le_refl _
    · rw [count_bytes_core_chars_of_not_chars b fn modes hA hC]
      exact List.length_filter_le _ b
  · rw [count_bytes_core_chars_of_no_scan b fn modes (by simpa using hA)]
    exact Nat.zero_le _

/-- Witness for the amended C7 on an invalid-UTF-8 buffer with Chars and Bytes
both requested. -/
theorem C7_witness :
    (count_bytes_core [0xFF, 32] none [CountMode.Chars, CountMode.Bytes]).chars ≤
      (count_bytes_core [0xFF, 32] none [CountMode.Chars, CountMode.Bytes]).bytes :=
  C7_chars_le_bytes_when_bytes_requested [0xFF, 32] none [CountMode.Chars, CountMode.Bytes]
    (by decide) (count_bytes_core [0xFF, 32] none [CountMode.Chars, CountMode.Bytes]) rfl

/-- Claim C9: `build_output` appends a grand-total record exactly when more
than one per-source record is present; the total is accumulated into a freshly
created record (its filename stays empty), its lines, words, bytes and chars
are the field-wise sums over the per-source records, its max_line_length is
the maximum rather than the sum, and the per-source records are emitted
unchanged before it. -/
theorem C9_grand_total_sum_and_max (rs : List WcCounter) :
    ((build_output_total rs).isSome ↔ rs.length > 1) ∧
    (∀ t, build_output_total rs = some t →
      t.lines = (rs.map WcCounter.lines).sum ∧
      t.words = (rs.map WcCounter.words).sum ∧
      t.bytes = (rs.map WcCounter.bytes).sum ∧
      t.chars = (rs.map WcCounter.chars).sum ∧
      t.max_line_length = (rs.map WcCounter.max_line_length).foldl max 0 ∧
      t.filename = none) ∧
    build_output_records rs = rs ++ (build_output_total rs).toList := by
  refine ⟨?_, ?_, ?_⟩
  · unfold build_output_total
    split_ifs with h <;> simp [h]
  · intro t ht
    unfold build_output_total at ht
    split_ifs at ht with hlen
    · have h : compute_total rs = t := Option.some.inj ht
      rw [← h]
      unfold compute_total
      refine ⟨?_, ?_, ?_, ?_, ?_, ?_⟩
      · rw [foldl_add_counts_lines]
        simp [WcCounter.new]
      · rw [foldl_add_counts_words]
        simp [WcCounter.new]
      · rw [foldl_add_counts_bytes]
        simp [WcCounter.new]
      · rw [foldl_add_counts_chars]
        simp [WcCounter.new]
      · rw [foldl_add_counts_max]
        simp [WcCounter.new]
      · rw [foldl_add_counts_filename]
        simp [WcCounter.new]
  · unfold build_output_records
    cases build_output_total rs <;> simp

/-- Witness for C9 at two concrete per-source records. -/
theorem C9_witness :
    (build_output_total
        [{ lines := 1, words := 2, bytes := 3, chars := 4, max_line_length := 5,
           filename := some "a" },
         { lines := 10, words := 20, bytes := 30, chars := 40, max_line_length := 50,
           filename := some "b" }]).isSome ↔
      ([{ lines := 1, words := 2, bytes := 3, chars := 4, max_line_length := 5,
          filename := some "a" },
        { lines := 10, words := 20, bytes := 30, chars := 40, max_line_length := 50,
          filename := some "b" }] : List WcCounter).length > 1 :=
  (C9_grand_total_sum_and_max _).1

/-- Claim C10: when Lines or Words is requested but Chars is not, the `chars`
field of the record returned by `count_bytes` is the per-chunk internal tally
returned unmasked: the number of bytes that are not ASCII whitespace (on the
three UTF-8 bytes of こ with mode Words it is 3, which is neither zero nor the
scalar-value count 1). -/
theorem C10_chars_field_unmasked_tally (b : List Nat) (fn : Option String)
    (modes : List CountMode) (h1 : CountMode.Lines ∈ modes ∨ CountMode.Words ∈ modes)
    (h2 : CountMode.Chars ∉ modes) :
    (∀ c, count_bytes b fn modes = Except.ok c → c.chars = non_ws_count b) ∧
    (count_bytes_core [0xE3, 0x81, 0x93] none [CountMode.Words]).chars = 3 ∧
    utf8_char_count [0xE3, 0x81, 0x93] = some 1 := by
  refine ⟨?_, by decide, by decide⟩
  intro c hc
  rw [count_bytes_ok_inv hc]
  have hA : modes.any CountMode.is_lwc = true := by
    cases h1 with
    | inl h => exact List.any_eq_true.mpr ⟨CountMode.Lines, h, rfl⟩
    | inr h => exact List.any_eq_true.mpr ⟨CountMode.Words, h, rfl⟩
  exact count_bytes_core_chars_of_not_chars b fn modes hA h2

/-- Witness for C10 at the buffer "a b" with mode Lines. -/
theorem C10_witness :
    (count_bytes_core [97, 32, 98] none [CountMode.Lines]).chars =
      non_ws_count [97, 32, 98] :=
  (C10_chars_field_unmasked_tally [97, 32, 98] none [CountMode.Lines]
    (Or.inl (by decide)) (by decide)).1
    (count_bytes_core [97, 32, 98] none [CountMode.Lines]) rfl

end RsWc
